import Mathlib

set_option maxHeartbeats 1000000

/-!
Verification development for the STM grading harness
(reference STM `tm.c`, bank workload `workload.hpp`, grading engine `grading.cpp`).

The bank workload runs its transactions through the reference STM, whose single
per-region reader/writer lock serializes read-write transactions, so each
committed transaction is modelled as a function on the shared-memory state.
The shared state seen by the workload is a null-terminated chain of account
segments; the chain is modelled as a Lean list (the `next` pointers become the
list structure, the terminating null pointer the end of the list).
-/

/-- One account segment, as laid out by `WorkloadBank::AccountSegment`:
a count of active accounts, a next pointer (kept by the list structure),
a parity correction, and an inline array of balances (`Balance = intptr_t`,
modelled as `Int`; the array has the region's fixed capacity `nbaccounts`,
slots at indices `≥ count` are allocated but inactive). -/
structure AccountSegment where
  count : Nat
  parity : Int
  accounts : List Int
deriving Repr, DecidableEq

/-- The chain of account segments reachable from the region start. -/
abbrev BankState := List AccountSegment

/-- Sum of the active balances of one segment (slots `0..count-1`). -/
def segActiveSum (s : AccountSegment) : Int :=
  (s.accounts.take s.count).sum

/-- Sum of all active balances of the region. -/
def activeSum (st : BankState) : Int :=
  (st.map segActiveSum).sum

/-- Sum of all segment parity corrections. -/
def paritySum (st : BankState) : Int :=
  (st.map AccountSegment.parity).sum

/-- Total number of active accounts. -/
def totalCount (st : BankState) : Nat :=
  (st.map AccountSegment.count).sum

/-- The workload's global balance invariant: active balances plus parity
corrections equal `init_balance` times the number of active accounts. -/
def balanceInvariant (ib : Int) (st : BankState) : Prop :=
  activeSum st + paritySum st = ib * (totalCount st : Int)

instance (ib : Int) (st : BankState) : Decidable (balanceInvariant ib st) := by
  unfold balanceInvariant
  infer_instance

/-- Combined defect of a state against the balance invariant; the invariant
holds exactly when the defect is zero. -/
def bankDelta (ib : Int) (st : BankState) : Int :=
  activeSum st + paritySum st - ib * (totalCount st : Int)

/-- Defect contribution of a single segment. -/
def segDelta (ib : Int) (s : AccountSegment) : Int :=
  segActiveSum s + s.parity - ib * (s.count : Int)

/-- Structural well-formedness of one segment: at least one active account
(empty tail segments are freed by `alloc_tx`, so they never persist), the
count within the fixed capacity `A`, and the inline array of capacity `A`. -/
def SegWf (A : Nat) (s : AccountSegment) : Prop :=
  1 ≤ s.count ∧ s.count ≤ A ∧ s.accounts.length = A

instance (A : Nat) (s : AccountSegment) : Decidable (SegWf A s) := by
  unfold SegWf
  infer_instance

/-- The segment-list invariant of the workload: the chain is nonempty
(the first segment always exists at the region start) and every segment is
well-formed.  Null-termination and acyclicity are implicit in the list
representation. -/
def BankWf (A : Nat) (st : BankState) : Prop :=
  st ≠ [] ∧ ∀ s ∈ st, SegWf A s

instance (A : Nat) (st : BankState) : Decidable (BankWf A st) := by
  unfold BankWf
  infer_instance

/-- The loop in `WorkloadBank::init` writing `init_balance` into account slots
`0..n-1` of the first segment, in increasing index order. -/
def writeBalances (accounts : List Int) (ib : Int) : Nat → List Int
  | 0 => accounts
  | n + 1 => (writeBalances accounts ib n).set n ib

/-- The committed effect of `WorkloadBank::init`'s read-write transaction:
write `nbaccounts` into the first segment's count and `init_balance` into its
first `nbaccounts` balance slots.  Nothing else is written. -/
def bankInit (A : Nat) (ib : Int) (st : BankState) : BankState :=
  match st with
  | [] => []
  | first :: rest =>
    { first with count := A, accounts := writeBalances first.accounts ib A } :: rest

/-- First segment of a fresh region: `tm_create` zeroes all bytes of the first
segment, which decodes as count `0`, null next pointer (singleton chain),
parity `0` and all-zero balance slots. -/
def freshSegment (A : Nat) : AccountSegment :=
  { count := 0, parity := 0, accounts := List.replicate A 0 }

/-- The state of a freshly created region: just the zeroed first segment. -/
def freshState (A : Nat) : BankState := [freshSegment A]

/-- Decrement of a C `size_t` value (the `--segment_count` in `alloc_tx`):
subtraction wraps modulo `2 ^ 64`. -/
def sizeTPred (c : Nat) : Nat :=
  (c + (2 ^ 64 - 1)) % 2 ^ 64

/-- A segment freshly allocated by `alloc_tx`: `tm_alloc` returns zeroed
memory (count `0`, null next, parity `0`, zero slots), then the transaction
writes count `1` and `init_balance` into slot `0`. -/
def newSegment (A : Nat) (ib : Int) : AccountSegment :=
  { count := 1, parity := 0, accounts := (List.replicate A (0 : Int)).set 0 ib }

/-- Tail step of `WorkloadBank::alloc_tx`, executed at the last segment
(`segment.next == nullptr`), given the count accumulated over the previous
segments, the previous segment (`nullptr` at the first segment) and the tail.
Returns the replacement for the `prev? ++ [last]` suffix of the chain, or
`none` when the `assert_mode && prev == nullptr` check before building
`prev_segment` is reached (the `TransactionNotLastSegment` site; past it the
code would dereference a null `prev`). -/
def alloc_tail (A : Nat) (ib : Int) (trigger : Nat) (count : Nat)
    (prev : Option AccountSegment) (last : AccountSegment) : Option BankState :=
  let total := count + last.count
  if total > trigger ∧ total > 2 then
    let segment_count := sizeTPred last.count
    let new_parity := last.parity + last.accounts.getD segment_count 0 - ib
    if segment_count > 0 then
      some (prev.toList ++ [{ last with count := segment_count, parity := new_parity }])
    else
      match prev with
      | none => none
      | some p => some [{ p with parity := p.parity + new_parity }]
  else
    if last.count < A then
      some (prev.toList ++
        [{ last with accounts := last.accounts.set last.count ib,
                     count := last.count + 1 }])
    else
      some (prev.toList ++ [last, newSegment A ib])

/-- The walk of `WorkloadBank::alloc_tx`: accumulate the counts while moving
to the tail, remembering the previous segment, then run the tail step. -/
def alloc_walk (A : Nat) (ib : Int) (trigger : Nat) : Nat → BankState → Option BankState
  | _, [] => none
  | count, [last] => alloc_tail A ib trigger count none last
  | count, [p, last] => alloc_tail A ib trigger (count + p.count) (some p) last
  | count, s :: rest => (alloc_walk A ib trigger (count + s.count) rest).map (s :: ·)

/-- The committed effect of `WorkloadBank::alloc_tx` with a given trigger. -/
def alloc_tx (A : Nat) (ib : Int) (trigger : Nat) (st : BankState) : Option BankState :=
  alloc_walk A ib trigger 0 st

/-- The account-index resolution loop shared by both indices of
`WorkloadBank::short_tx`: walk the segments subtracting each segment's count
from the index until the segment holding the index is found; `none` when the
chain ends first.  The result is the shared address of the slot, modelled as
(segment position, slot index). -/
def locate (counts : List Nat) (id : Nat) : Option (Nat × Nat) :=
  match counts with
  | [] => none
  | c :: rest =>
    if id < c then some (0, id)
    else (locate rest (id - c)).map (fun q => (q.1 + 1, q.2))

/-- Dereference a shared account address. -/
def readAccount : BankState → Nat × Nat → Int
  | [], _ => 0
  | seg :: _, (0, j) => seg.accounts.getD j 0
  | _ :: rest, (i + 1, j) => readAccount rest (i, j)

/-- Write through a shared account address. -/
def writeAccount : BankState → Nat × Nat → Int → BankState
  | [], _, _ => []
  | seg :: rest, (0, j), v => { seg with accounts := seg.accounts.set j v } :: rest
  | seg :: rest, (i + 1, j), v => seg :: writeAccount rest (i, j) v

/-- The committed effect of `WorkloadBank::short_tx(send_id, recv_id)`:
resolve both indices to addresses (returning `false` and doing nothing if
either runs past the chain); then, if the sender balance is positive, write
the decremented sender balance and afterwards read the receiver slot and
write it incremented (the receiver read happens after the sender write, so a
same-slot transfer reads the decremented value back). -/
def short_tx (st : BankState) (send_id recv_id : Nat) : Bool × BankState :=
  match locate (st.map AccountSegment.count) send_id,
        locate (st.map AccountSegment.count) recv_id with
  | some sq, some rq =>
    let v := readAccount st sq
    if v > 0 then
      let st1 := writeAccount st sq (v - 1)
      (true, writeAccount st1 rq (readAccount st1 rq + 1))
    else (true, st)
  | _, _ => (false, st)

/-!
Model of the reference STM (`tm.c`).  Memory is byte-addressed (`Nat → Nat`);
the per-region reader/writer lock serializes writers, and `tm_read`,
`tm_write`, `tm_end`, `tm_free` are plain byte copies / list updates that
unconditionally return `true`.  `posix_memalign` is an OS facility: it is
modelled by passing in the base address it returns, constrained only by its
alignment contract.
-/

/-- Byte copy of `n` bytes from `src` to `dst` (`memcpy`). -/
def memcpyBytes (m : Nat → Nat) (src dst n : Nat) : Nat → Nat :=
  fun a => if dst ≤ a ∧ a < dst + n then m (src + (a - dst)) else m a

/-- Zeroing of `n` bytes starting at `dst` (`memset(dst, 0, n)`). -/
def memsetZero (m : Nat → Nat) (dst n : Nat) : Nat → Nat :=
  fun a => if dst ≤ a ∧ a < dst + n then 0 else m a

/-- The reference STM's `struct region`: start address and size of the first
segment, claimed alignment, actual allocation alignment, the space reserved
before each dynamic segment for its doubly-linked list node, the list of
dynamically allocated segments (base addresses of their link nodes, in chain
order), and the byte contents of memory. -/
structure RefRegion where
  start : Nat
  size : Nat
  align : Nat
  align_alloc : Nat
  delta_alloc : Nat
  allocs : List Nat
  mem : Nat → Nat

/-- The successful path of `tm_create(size, align)`: `p` is `sizeof(void*)`
(so `2 * p` is `sizeof(struct link)`), `m0` the uninitialized contents of the
block `posix_memalign` returned at `base`.  The first segment's `size` bytes
are zeroed, the allocation list starts empty, the allocation alignment also
satisfies `struct link`'s requirement, and `delta_alloc` rounds the link-node
size up to that alignment. -/
def tm_create (m0 : Nat → Nat) (p size align base : Nat) : RefRegion :=
  let align_alloc := if align < p then p else align
  { start := base
    size := size
    align := align
    align_alloc := align_alloc
    delta_alloc := (2 * p + align_alloc - 1) / align_alloc * align_alloc
    allocs := []
    mem := memsetZero m0 base size }

/-- `tm_read`: a plain `memcpy` from shared to private memory; returns `true`. -/
def tm_read (m : Nat → Nat) (source n target : Nat) : (Nat → Nat) × Bool :=
  (memcpyBytes m source target n, true)

/-- `tm_write`: a plain `memcpy` from private to shared memory; returns `true`. -/
def tm_write (m : Nat → Nat) (source n target : Nat) : (Nat → Nat) × Bool :=
  (memcpyBytes m source target n, true)

/-- `tm_end`: releases the shared or exclusive lock and returns `true`. -/
def tm_end (_is_ro : Bool) : Bool :=
  true

/-- The successful path of `tm_alloc(region, tx, n, target)`: `posix_memalign`
returned a block at `base`; its link node is inserted before the region's
list head (i.e. at the end of the chain), the caller's segment starts
`delta_alloc` bytes in, and its `n` bytes are zeroed.  Returns the address
stored into `*target`. -/
def tm_alloc (r : RefRegion) (base n : Nat) : RefRegion × Nat :=
  let target := base + r.delta_alloc
  ({ r with allocs := r.allocs ++ [base], mem := memsetZero r.mem target n }, target)

/-- `tm_free(region, tx, segment)`: step back `delta_alloc` bytes to the link
node, unlink it from the region's allocation list, release the block, and
return `true`. -/
def tm_free (r : RefRegion) (segment : Nat) : RefRegion × Bool :=
  ({ r with allocs := r.allocs.erase (segment - r.delta_alloc) }, true)

/-- A region whose whole first segment reads as zero bytes. -/
def ZeroedFirstSegment (r : RefRegion) : Prop :=
  ∀ i, i < r.size → r.mem (r.start + i) = 0

/-- Event trace of `tm_destroy`, in source order: free every dynamically
allocated segment, free the first segment (`region->start`), free the region
structure itself, and then call `lock_cleanup(&region->lock)` — an access to
a field of the just-freed region structure. -/
inductive DestroyEvent where
  | freeSegment (addr : Nat)
  | freeStart
  | freeRegion
  | cleanupLockField
deriving Repr, DecidableEq

/-- The sequence of deallocations and accesses `tm_destroy` performs. -/
def tm_destroy_trace (allocs : List Nat) : List DestroyEvent :=
  (allocs.map DestroyEvent.freeSegment) ++
    [DestroyEvent.freeStart, DestroyEvent.freeRegion, DestroyEvent.cleanupLockField]

/-!
Model of `WorkloadBank::check` (the check phase).  The reference STM
serializes the transactions, so an execution is an interleaving (a schedule
of worker positions), each schedule entry running the chosen worker's next
transaction atomically.  Worker 0's initialization has already stored
`100 × nbworkers` in the counter (the first shared word) and the barrier has
released the workers into their loops.
-/

/-- Per-worker state in the check phase: completed iterations, whether the
read-only sampling transaction of the current iteration has run (so the
read-write one is next), the sampled `last` bound, and whether the worker's
read-write transaction returned `false` ("Violated consistency, isolation or
atomicity"). -/
structure CheckWorker where
  iters : Nat
  inRW : Bool
  last : Nat
  failed : Bool
deriving Repr, DecidableEq

/-- Global state of the check phase: the shared counter and the workers. -/
structure CheckState where
  counter : Nat
  workers : List CheckWorker
deriving Repr, DecidableEq

/-- The `constexpr size_t nbtxperwrk = 100` local to `WorkloadBank::check`. -/
def checkTxPerWrk : Nat := 100

/-- State after worker 0 initialized the counter to `nbtxperwrk * nbworkers`
and before any loop iteration ran. -/
def checkInit (W : Nat) : CheckState :=
  { counter := checkTxPerWrk * W
    workers := List.replicate W { iters := 0, inRW := false, last := 0, failed := false } }

/-- One scheduled atomic transaction of worker `w`: a finished or failed
worker does nothing; otherwise the worker runs the next transaction of its
loop body — the read-only transaction samples the counter into `last`; the
read-write transaction reads the counter, fails if the value exceeds `last`,
and otherwise writes the value decremented by one (a `size_t` decrement,
truncated at zero exactly when the value is zero). -/
def checkStep (s : CheckState) (w : Nat) : CheckState :=
  match s.workers[w]? with
  | none => s
  | some ws =>
    if ws.failed ∨ checkTxPerWrk ≤ ws.iters then s
    else if ws.inRW = false then
      { s with workers := s.workers.set w { ws with inRW := true, last := s.counter } }
    else
      let value := s.counter
      if ws.last < value then
        { s with workers := s.workers.set w { ws with failed := true } }
      else
        { counter := value - 1
          workers := s.workers.set w { ws with inRW := false, iters := ws.iters + 1 } }

/-- Run a whole schedule of the check phase from the initialized state. -/
def checkRun (W : Nat) (sched : List Nat) : CheckState :=
  sched.foldl checkStep (checkInit W)

/-- The check-phase properties claimed of any serialized execution: no
read-write transaction ever fails (each observes a value at most its `last`
bound), a worker about to run its read-write transaction still has the
current counter bounded by its sample, and when every worker has committed
all `100` iterations the counter is exactly zero. -/
def CheckGood (s : CheckState) : Prop :=
  (∀ ws ∈ s.workers, ws.failed = false) ∧
  (∀ ws ∈ s.workers, ws.inRW = true → s.counter ≤ ws.last) ∧
  (∀ ws ∈ s.workers, ws.iters ≤ checkTxPerWrk) ∧
  ((∀ ws ∈ s.workers, ws.iters = checkTxPerWrk) → s.counter = 0)

/-- Inductive invariant of the check-phase model: the worker vector has the
right width; no worker failed; every worker is within its iteration budget;
a worker between its sampling and its decrement still has the counter
bounded by its sample and budget left; and the counter accounts exactly for
the decrements already committed. -/
def CheckInv (W : Nat) (s : CheckState) : Prop :=
  s.workers.length = W ∧
  (∀ ws ∈ s.workers, ws.failed = false ∧ ws.iters ≤ checkTxPerWrk ∧
    (ws.inRW = true → ws.iters < checkTxPerWrk ∧ s.counter ≤ ws.last)) ∧
  s.counter + (s.workers.map CheckWorker.iters).sum = checkTxPerWrk * W

/-!
Model of the grading engine's control flow (`measure` and `main` in
`grading.cpp`): the per-phase outcome seen by the master, and the process
exit it produces.
-/

/-- Outcome of one `master_notify`/`master_wait` pair: the phase finished in
some time, the workers reported a correctness violation, or the completion
latch timed out (`master_wait` throws `Exception::BoundedOverrun`). -/
inductive PhaseOutcome where
  | ok (time : Nat)
  | violation (msg : String)
  | timeout
deriving Repr, DecidableEq

/-- Whether a phase completed without error or timeout. -/
def PhaseOutcome.isOk : PhaseOutcome → Bool
  | .ok _ => true
  | _ => false

/-- Result of `measure` on the sequence of its phases (init, the repeats,
check, in order): all phases fine; an error string returned after `goto
join`; or an exception propagated out (threads detached on the way). -/
inductive MeasureResult where
  | allOk
  | error (msg : String)
  | thrown
deriving Repr, DecidableEq

/-- The master's phase loop in `measure`: phases run in order; the first
violation short-circuits to `join` and is returned; a timeout throws. -/
def runPhases : List PhaseOutcome → MeasureResult
  | [] => .allOk
  | .ok _ :: rest => runPhases rest
  | .violation m :: _ => .error m
  | .timeout :: _ => .thrown

/-- How the process terminates for a single evaluated artifact. -/
inductive HarnessExit where
  | normal (code : Nat)
  | quickExit (code : Nat)
deriving Repr, DecidableEq

/-- The numeric process exit status. -/
def exitCode : HarnessExit → Nat
  | .normal c => c
  | .quickExit c => c

/-- Exit behavior of `main` evaluating one artifact: a violation returned by
`measure` prints the error and `return 1`; an exception out of `measure`
(the timeout) is caught and the process `std::quick_exit(2)`s because the
library cannot be unloaded with running threads; otherwise evaluation
continues and `main` returns `0`. -/
def mainExitModel (phases : List PhaseOutcome) : HarnessExit :=
  match runPhases phases with
  | .thrown => .quickExit 2
  | .error _ => .normal 1
  | .allOk => .normal 0

/-- The number of measurement repeats (`nbrepeats` in `main`). -/
def nbrepeats : Nat := 7

/-- The selection index `posmedian = nbrepeats / 2` in `measure`. -/
def posmedian : Nat := nbrepeats / 2

/-- The run time `measure` reports: `std::nth_element(times, times +
posmedian, times + nbrepeats)` (an external library call whose contract
places at `posmedian` the element a full sort would put there) followed by
reading `times[posmedian]`; equivalently, index `posmedian` of the sorted
run times. -/
def reportedRunTime (times : List Nat) : Nat :=
  (times.mergeSort (fun a b => a ≤ b)).getD posmedian 0

/-!
Helper lemmas about list indexing and sums, used throughout.
-/

/-- Reading with a default at an in-range index is plain indexing. -/
theorem getD_eq_getElem {α : Type} (l : List α) (j : Nat) (d : α) (h : j < l.length) :
    l.getD j d = l[j] := by
  simp [List.getD_eq_getElem?_getD, List.getElem?_eq_getElem h]

/-- Updating an in-range entry of an integer list shifts the sum by the
difference of new and old entry. -/
theorem sum_set_int (l : List Int) (j : Nat) (v : Int) (h : j < l.length) :
    (l.set j v).sum = l.sum - l.getD j 0 + v := by
  induction l generalizing j with
  | nil => simp at h
  | cons a tl ih =>
    cases j with
    | zero => simp; ring
    | succ j =>
      have hj : j < tl.length := by simpa using h
      simp [ih j hj]
      ring

/-- Updating an in-range entry of a natural-number list, additively stated. -/
theorem sum_set_nat (l : List Nat) (j v : Nat) (h : j < l.length) :
    (l.set j v).sum + l.getD j 0 = l.sum + v := by
  induction l generalizing j with
  | nil => simp at h
  | cons a tl ih =>
    cases j with
    | zero => simp; omega
    | succ j =>
      have hj : j < tl.length := by simpa using h
      have := ih j hj
      simp at this ⊢
      omega

/-- Setting at the cut index leaves the taken prefix unchanged. -/
theorem take_set_self {α : Type} (l : List α) (c : Nat) (v : α) :
    (l.set c v).take c = l.take c := by
  rw [List.set_take]
  exact List.set_eq_of_length_le (by simp [Nat.min_le_left])

/-- Extending a prefix by one in-range element. -/
theorem take_succ_getD {α : Type} (l : List α) (j : Nat) (d : α) (h : j < l.length) :
    l.take (j + 1) = l.take j ++ [l.getD j d] := by
  rw [List.take_succ, List.getElem?_eq_getElem h, getD_eq_getElem l j d h]
  rfl

/-- Reading inside a taken prefix. -/
theorem getD_take {α : Type} (l : List α) (c j : Nat) (d : α) (h1 : j < c)
    (h2 : j < l.length) :
    (l.take c).getD j d = l.getD j d := by
  have hlen : j < (l.take c).length := by simp [Nat.lt_min]; exact ⟨h1, h2⟩
  rw [getD_eq_getElem _ j d hlen, getD_eq_getElem l j d h2]
  exact (List.getElem_take' l h2 h1).symm

/-- Rewriting an entry with its own value is the identity. -/
theorem set_getD_self {α : Type} (l : List α) (j : Nat) (d : α) (h : j < l.length) :
    l.set j (l.getD j d) = l := by
  apply List.ext_getElem?
  intro i
  by_cases hij : i = j
  · subst hij
    rw [List.getElem?_set_self (by exact h), List.getElem?_eq_getElem h,
      getD_eq_getElem l i d h]
  · rw [List.getElem?_set_ne (fun hc => hij hc.symm)]

/-- Reading back a just-written in-range entry. -/
theorem getD_set_self {α : Type} (l : List α) (j : Nat) (v d : α) (h : j < l.length) :
    (l.set j v).getD j d = v := by
  rw [getD_eq_getElem _ j d (by simpa using h)]
  exact List.getElem_set_self (by simpa using h)

/-- A list of naturals bounded by `B` sums to at most `B` per element. -/
theorem sum_le_mul_length (l : List Nat) (B : Nat) (h : ∀ x ∈ l, x ≤ B) :
    l.sum ≤ B * l.length := by
  induction l with
  | nil => simp
  | cons a tl ih =>
    have ha := h a (by simp)
    have htl := ih (fun x hx => h x (by simp [hx]))
    simp [List.sum_cons, Nat.mul_succ]
    omega

/-- If moreover some in-range entry is strictly below `B`, the sum is
strictly below `B` per element. -/
theorem sum_lt_mul_length (l : List Nat) (B j : Nat) (hj : j < l.length)
    (hlt : l.getD j 0 < B) (hle : ∀ x ∈ l, x ≤ B) :
    l.sum < B * l.length := by
  induction l generalizing j with
  | nil => simp at hj
  | cons a tl ih =>
    cases j with
    | zero =>
      simp at hlt
      have htl := sum_le_mul_length tl B (fun x hx => hle x (by simp [hx]))
      simp [List.sum_cons, Nat.mul_succ]
      omega
    | succ j =>
      have hj' : j < tl.length := by simpa using hj
      have hlt' : tl.getD j 0 < B := by simpa using hlt
      have htl := ih j hj' hlt' (fun x hx => hle x (by simp [hx]))
      have ha := hle a (by simp)
      simp [List.sum_cons, Nat.mul_succ]
      omega

/-- A list all of whose elements equal `c` sums to `c` per element. -/
theorem sum_eq_mul_length (l : List Nat) (c : Nat) (h : ∀ x ∈ l, x = c) :
    l.sum = c * l.length := by
  induction l with
  | nil => simp
  | cons a tl ih =>
    have ha := h a (by simp)
    have htl := ih (fun x hx => h x (by simp [hx]))
    simp [List.sum_cons, Nat.mul_succ]
    omega

/-!
Lemmas about the bank state: defect algebra, address resolution, and the
effect of single-slot writes.
-/

/-- Defect of the empty chain is zero. -/
theorem bankDelta_nil (ib : Int) : bankDelta ib [] = 0 := by
  simp [bankDelta, activeSum, paritySum, totalCount]

/-- Defect splits off the head segment. -/
theorem bankDelta_cons (ib : Int) (s : AccountSegment) (st : BankState) :
    bankDelta ib (s :: st) = segDelta ib s + bankDelta ib st := by
  simp only [bankDelta, segDelta, activeSum, paritySum, totalCount, List.map_cons,
    List.sum_cons]
  push_cast
  ring

/-- Defect is additive over concatenation. -/
theorem bankDelta_append (ib : Int) (l1 l2 : BankState) :
    bankDelta ib (l1 ++ l2) = bankDelta ib l1 + bankDelta ib l2 := by
  induction l1 with
  | nil => simp [bankDelta_nil]
  | cons s tl ih => simp [bankDelta_cons, ih]; ring

/-- The balance invariant holds exactly when the defect vanishes. -/
theorem balanceInvariant_iff (ib : Int) (st : BankState) :
    balanceInvariant ib st ↔ bankDelta ib st = 0 := by
  unfold balanceInvariant bankDelta
  omega

/-- A successfully resolved address is in range: the segment exists and the
slot index is below the segment's active count. -/
theorem locate_lt (counts : List Nat) (id i j : Nat)
    (h : locate counts id = some (i, j)) :
    i < counts.length ∧ j < counts.getD i 0 := by
  induction counts generalizing id i j with
  | nil => simp [locate] at h
  | cons c rest ih =>
    simp only [locate] at h
    by_cases hid : id < c
    · rw [if_pos hid] at h
      have h2 : (0, id) = (i, j) := Option.some.inj h
      rw [Prod.mk.injEq] at h2
      obtain ⟨h3, h4⟩ := h2
      subst h3
      subst h4
      simpa using hid
    · rw [if_neg hid] at h
      rw [Option.map_eq_some'] at h
      obtain ⟨q, hrec, hq⟩ := h
      rw [Prod.mk.injEq] at hq
      obtain ⟨h3, h4⟩ := hq
      subst h3
      subst h4
      obtain ⟨h1, h2⟩ := ih (id - c) q.1 q.2 hrec
      constructor
      · simpa using h1
      · simpa using h2

/-- Any index below the total count resolves to an address. -/
theorem locate_isSome (counts : List Nat) (id : Nat) (h : id < counts.sum) :
    (locate counts id).isSome := by
  induction counts generalizing id with
  | nil => simp at h
  | cons c rest ih =>
    simp only [locate]
    by_cases hid : id < c
    · simp [hid]
    · rw [if_neg hid]
      rw [Option.isSome_map']
      apply ih
      simp [List.sum_cons] at h
      omega

/-- Slot writes do not change any segment count. -/
theorem writeAccount_map_count : ∀ (st : BankState) (i j : Nat) (v : Int),
    (writeAccount st (i, j) v).map AccountSegment.count = st.map AccountSegment.count
  | [], _, _, _ => rfl
  | _ :: _, 0, _, _ => rfl
  | seg :: rest, i + 1, j, v => by
    simp [writeAccount, writeAccount_map_count rest i j v]

/-- Slot writes do not change any segment parity. -/
theorem writeAccount_map_parity : ∀ (st : BankState) (i j : Nat) (v : Int),
    (writeAccount st (i, j) v).map AccountSegment.parity = st.map AccountSegment.parity
  | [], _, _, _ => rfl
  | _ :: _, 0, _, _ => rfl
  | seg :: rest, i + 1, j, v => by
    simp [writeAccount, writeAccount_map_parity rest i j v]

/-- Slot writes do not change any segment's array capacity. -/
theorem writeAccount_map_length : ∀ (st : BankState) (i j : Nat) (v : Int),
    (writeAccount st (i, j) v).map (fun s => s.accounts.length) =
      st.map (fun s => s.accounts.length)
  | [], _, _, _ => rfl
  | _ :: _, 0, _, _ => by simp [writeAccount]
  | seg :: rest, i + 1, j, v => by
    simp [writeAccount, writeAccount_map_length rest i j v]

/-- Writing an active slot shifts the total active sum by the difference of
the new and old slot values. -/
theorem writeAccount_activeSum : ∀ (st : BankState) (i j : Nat) (v : Int),
    j < (st.map AccountSegment.count).getD i 0 →
    (st.map AccountSegment.count).getD i 0 ≤
      (st.map (fun s => s.accounts.length)).getD i 0 →
    activeSum (writeAccount st (i, j) v) = activeSum st - readAccount st (i, j) + v
  | [], i, j, v, hj, _ => by simp at hj
  | seg :: rest, 0, j, v, hj, hlen => by
    simp only [List.map_cons, List.getD_cons_zero] at hj hlen
    have hjlen : j < seg.accounts.length := lt_of_lt_of_le hj hlen
    have htakelen : j < (seg.accounts.take seg.count).length := by
      simp [Nat.lt_min]
      exact ⟨hj, hjlen⟩
    simp only [writeAccount, activeSum, readAccount, List.map_cons, List.sum_cons]
    have hseg : segActiveSum { seg with accounts := seg.accounts.set j v } =
        segActiveSum seg - seg.accounts.getD j 0 + v := by
      simp only [segActiveSum]
      rw [List.set_take, sum_set_int _ j v htakelen,
        getD_take seg.accounts seg.count j 0 hj hjlen]
    rw [hseg]
    ring
  | seg :: rest, i + 1, j, v, hj, hlen => by
    simp only [List.map_cons, List.getD_cons_succ] at hj hlen
    simp only [writeAccount, activeSum, readAccount, List.map_cons, List.sum_cons]
    have := writeAccount_activeSum rest i j v hj hlen
    simp only [activeSum] at this
    rw [this]
    ring

/-- Reading back a just-written active slot. -/
theorem readAccount_writeAccount_self : ∀ (st : BankState) (i j : Nat) (v : Int),
    j < (st.map (fun s => s.accounts.length)).getD i 0 →
    readAccount (writeAccount st (i, j) v) (i, j) = v
  | [], i, j, v, hj => by simp at hj
  | seg :: rest, 0, j, v, hj => by
    simp only [List.map_cons, List.getD_cons_zero] at hj
    simp only [writeAccount, readAccount]
    exact getD_set_self seg.accounts j v 0 hj
  | seg :: rest, i + 1, j, v, hj => by
    simp only [List.map_cons, List.getD_cons_succ] at hj
    simp only [writeAccount, readAccount]
    exact readAccount_writeAccount_self rest i j v hj

/-- Two writes through the same address collapse to the second. -/
theorem writeAccount_writeAccount_self : ∀ (st : BankState) (i j : Nat) (a b : Int),
    writeAccount (writeAccount st (i, j) a) (i, j) b = writeAccount st (i, j) b
  | [], _, _, _, _ => rfl
  | seg :: rest, 0, j, a, b => by
    simp [writeAccount, List.set_set]
  | seg :: rest, i + 1, j, a, b => by
    simp [writeAccount, writeAccount_writeAccount_self rest i j a b]

/-- Writing a slot's own value back is the identity. -/
theorem writeAccount_readAccount_self : ∀ (st : BankState) (i j : Nat),
    j < (st.map (fun s => s.accounts.length)).getD i 0 →
    writeAccount st (i, j) (readAccount st (i, j)) = st
  | [], i, j, hj => by simp at hj
  | seg :: rest, 0, j, hj => by
    simp only [List.map_cons, List.getD_cons_zero] at hj
    simp only [writeAccount, readAccount]
    rw [set_getD_self seg.accounts j 0 hj]
  | seg :: rest, i + 1, j, hj => by
    simp only [List.map_cons, List.getD_cons_succ] at hj
    simp only [writeAccount, readAccount]
    rw [writeAccount_readAccount_self rest i j hj]

/-!
Lemmas about the allocation/deallocation transaction.
-/

/-- The wrapped `size_t` decrement agrees with truncated subtraction for
in-range positive counts. -/
theorem sizeTPred_eq (c : Nat) (h1 : 1 ≤ c) (h2 : c < 2 ^ 64) : sizeTPred c = c - 1 := by
  unfold sizeTPred
  omega

/-- The freshly allocated-and-initialized segment contributes no defect. -/
theorem segDelta_newSegment (A : Nat) (ib : Int) (hA1 : 1 ≤ A) :
    segDelta ib (newSegment A ib) = 0 := by
  have hlen : 0 < ((List.replicate A (0 : Int)).set 0 ib).length := by
    simpa using hA1
  have htake := take_succ_getD ((List.replicate A (0 : Int)).set 0 ib) 0 0 hlen
  have hget : ((List.replicate A (0 : Int)).set 0 ib).getD 0 0 = ib :=
    getD_set_self _ 0 ib 0 (by simpa using hA1)
  simp only [newSegment, segDelta, segActiveSum]
  rw [htake, hget]
  simp

/-- The tail step with a non-null previous segment always produces a state. -/
theorem alloc_tail_isSome_of_prev_some (A : Nat) (ib : Int) (trigger count : Nat)
    (p last : AccountSegment) :
    (alloc_tail A ib trigger count (some p) last).isSome := by
  simp only [alloc_tail]
  split
  · split
    · simp
    · simp
  · split
    · simp
    · simp

/-- The tail step at the first segment (null prev, zero accumulated count)
always produces a state: reaching the null-prev site needs a tail count of
one, while the deallocation guard requires a total strictly above two. -/
theorem alloc_tail_isSome_of_first (A : Nat) (ib : Int) (trigger : Nat)
    (last : AccountSegment) (h1 : 1 ≤ last.count) (h2 : last.count < 2 ^ 64) :
    (alloc_tail A ib trigger 0 none last).isSome := by
  simp only [alloc_tail, sizeTPred_eq last.count h1 h2]
  split
  · rename_i hcond
    split
    · simp
    · rename_i hsc
      exfalso
      omega
  · split
    · simp
    · simp

/-- The tail step preserves the defect of the suffix it replaces. -/
theorem alloc_tail_delta (A : Nat) (ib : Int) (trigger count : Nat)
    (prev : Option AccountSegment) (last : AccountSegment)
    (hwf : SegWf A last) (hA : A < 2 ^ 64) (out : BankState)
    (h : alloc_tail A ib trigger count prev last = some out) :
    bankDelta ib out = bankDelta ib (prev.toList ++ [last]) := by
  obtain ⟨hc1, hcA, hlen⟩ := hwf
  have hclt : last.count < 2 ^ 64 := lt_of_le_of_lt hcA hA
  simp only [alloc_tail, sizeTPred_eq last.count hc1 hclt] at h
  split at h
  · rename_i hcond
    split at h
    · -- deallocate one account in the tail segment
      rename_i hsc
      injection h with h
      subst h
      rw [bankDelta_append, bankDelta_append]
      congr 1
      rw [bankDelta_cons, bankDelta_cons, bankDelta_nil]
      simp only [segDelta, segActiveSum]
      have hsub : last.count - 1 < last.accounts.length := by omega
      have htake := take_succ_getD last.accounts (last.count - 1) 0 hsub
      have hone : last.count - 1 + 1 = last.count := by omega
      rw [hone] at htake
      rw [htake, List.sum_append, List.sum_cons, List.sum_nil]
      rw [Nat.cast_sub hc1]
      push_cast
      ring
    · -- deallocate the tail segment, folding into the previous one
      rename_i hsc
      cases prev with
      | none => simp at h
      | some p =>
        injection h with h
        subst h
        have hc : last.count = 1 := by omega
        have hlen1 : 0 < last.accounts.length := by omega
        have htake := take_succ_getD last.accounts 0 0 hlen1
        simp only [Option.toList, List.singleton_append]
        simp only [bankDelta_cons, bankDelta_nil]
        simp only [segDelta, segActiveSum, hc]
        rw [show (1 : Nat) = 0 + 1 from rfl, htake]
        simp only [List.take_zero, List.nil_append, List.sum_cons, List.sum_nil]
        push_cast
        ring
  · rename_i hcond
    split at h
    · -- append one account to the tail segment
      rename_i hltA
      injection h with h
      subst h
      rw [bankDelta_append, bankDelta_append]
      congr 1
      rw [bankDelta_cons, bankDelta_cons, bankDelta_nil]
      simp only [segDelta, segActiveSum]
      have hsetlen : last.count < (last.accounts.set last.count ib).length := by
        simpa [hlen] using hltA
      have htake := take_succ_getD (last.accounts.set last.count ib) last.count 0 hsetlen
      rw [htake, take_set_self, getD_set_self _ _ _ _ (by omega), List.sum_append,
        List.sum_cons, List.sum_nil]
      push_cast
      ring
    · -- allocate and link a fresh segment holding one account
      rename_i hgeA
      injection h with h
      subst h
      rw [bankDelta_append, bankDelta_append]
      congr 1
      simp only [bankDelta_cons, bankDelta_nil,
        segDelta_newSegment A ib (le_trans hc1 hcA)]
      ring

/-- The walk preserves the defect whenever it produces a state. -/
theorem alloc_walk_delta (A : Nat) (ib : Int) (trigger : Nat) (hA : A < 2 ^ 64) :
    ∀ (st : BankState), (∀ s ∈ st, SegWf A s) →
    ∀ (count : Nat) (out : BankState),
      alloc_walk A ib trigger count st = some out →
      bankDelta ib out = bankDelta ib st := by
  intro st
  induction st with
  | nil =>
    intro _ count out h
    simp [alloc_walk] at h
  | cons s rest ih =>
    intro hwf count out h
    cases rest with
    | nil =>
      have := alloc_tail_delta A ib trigger count none s (hwf s (by simp)) hA out h
      simpa [Option.toList] using this
    | cons s2 rest2 =>
      cases rest2 with
      | nil =>
        have := alloc_tail_delta A ib trigger (count + s.count) (some s) s2
          (hwf s2 (by simp)) hA out h
        simpa [Option.toList] using this
      | cons s3 rest3 =>
        have heq : alloc_walk A ib trigger count (s :: s2 :: s3 :: rest3) =
            (alloc_walk A ib trigger (count + s.count) (s2 :: s3 :: rest3)).map
              (s :: ·) := rfl
        rw [heq, Option.map_eq_some'] at h
        obtain ⟨out', hrec, hout⟩ := h
        subst hout
        rw [bankDelta_cons, bankDelta_cons]
        rw [ih (fun x hx => hwf x (by simp [hx])) (count + s.count) out' hrec]

/-- The walk over a chain of at least two segments always produces a state. -/
theorem alloc_walk_isSome_of_two (A : Nat) (ib : Int) (trigger : Nat) :
    ∀ (st : BankState) (count : Nat), 2 ≤ st.length →
      (alloc_walk A ib trigger count st).isSome := by
  intro st
  induction st with
  | nil => intro count h; simp at h
  | cons s rest ih =>
    intro count h
    cases rest with
    | nil => simp at h
    | cons s2 rest2 =>
      cases rest2 with
      | nil => exact alloc_tail_isSome_of_prev_some A ib trigger (count + s.count) s s2
      | cons s3 rest3 =>
        have heq : alloc_walk A ib trigger count (s :: s2 :: s3 :: rest3) =
            (alloc_walk A ib trigger (count + s.count) (s2 :: s3 :: rest3)).map
              (s :: ·) := rfl
        rw [heq, Option.isSome_map']
        exact ih (count + s.count) (by simp)

/-- On any well-formed state the allocation transaction commits to a state:
the `TransactionNotLastSegment` site is unreachable. -/
theorem alloc_tx_isSome (A : Nat) (ib : Int) (trigger : Nat) (st : BankState)
    (hwf : BankWf A st) (hA : A < 2 ^ 64) :
    (alloc_tx A ib trigger st).isSome := by
  obtain ⟨hne, hall⟩ := hwf
  unfold alloc_tx
  cases st with
  | nil => exact absurd rfl hne
  | cons s rest =>
    cases rest with
    | nil =>
      obtain ⟨h1, h2, _⟩ := hall s (by simp)
      exact alloc_tail_isSome_of_first A ib trigger s h1 (lt_of_le_of_lt h2 hA)
    | cons s2 rest2 =>
      exact alloc_walk_isSome_of_two A ib trigger (s :: s2 :: rest2) 0 (by simp)

/-!
Lemmas about the init transaction and the short transfer, then the claim
theorems about the workload.
-/

/-- The init loop over a replicated array fills a prefix. -/
theorem writeBalances_replicate_aux (A : Nat) (x ib : Int) :
    ∀ n, n ≤ A → writeBalances (List.replicate A x) ib n =
      List.replicate n ib ++ List.replicate (A - n) x := by
  intro n
  induction n with
  | zero => intro _; simp [writeBalances]
  | succ n ihn =>
    intro h
    rw [writeBalances, ihn (by omega)]
    rw [List.set_append_right _ _ (by simp)]
    simp only [List.length_replicate, Nat.sub_self]
    have hsn : A - n = (A - (n + 1)) + 1 := by omega
    rw [hsn, List.replicate_succ]
    simp [List.replicate_succ', List.append_assoc]

/-- The init loop turns the zeroed array into `init_balance` everywhere. -/
theorem writeBalances_replicate (A : Nat) (ib : Int) :
    writeBalances (List.replicate A (0 : Int)) ib A = List.replicate A ib := by
  have := writeBalances_replicate_aux A 0 ib A le_rfl
  simpa using this

/-- The committed init transaction on a fresh region produces the singleton
chain whose first segment holds `A` accounts of `init_balance`, parity `0`
and a null next pointer. -/
theorem bankInit_fresh (A : Nat) (ib : Int) :
    bankInit A ib (freshState A) =
      [{ count := A, parity := 0, accounts := List.replicate A ib }] := by
  simp [bankInit, freshState, freshSegment, writeBalances_replicate]

/-- The init transaction establishes the balance invariant. -/
theorem balanceInvariant_bankInit_fresh (A : Nat) (ib : Int) :
    balanceInvariant ib (bankInit A ib (freshState A)) := by
  rw [bankInit_fresh]
  simp only [balanceInvariant, activeSum, paritySum, totalCount, segActiveSum,
    List.map_cons, List.map_nil, List.sum_cons, List.sum_nil, List.take_replicate,
    Nat.min_self, List.sum_replicate, nsmul_eq_mul]
  push_cast
  ring

/-- Well-formedness bounds every segment's count by its array capacity,
stated on the positionwise projections. -/
theorem wf_counts_le_lengths (A : Nat) (st : BankState)
    (hall : ∀ s ∈ st, SegWf A s) (i : Nat) (hi : i < st.length) :
    (st.map AccountSegment.count).getD i 0 ≤
      (st.map (fun s => s.accounts.length)).getD i 0 := by
  have hmem : st[i] ∈ st := List.getElem_mem hi
  obtain ⟨h1, h2, h3⟩ := hall st[i] hmem
  rw [getD_eq_getElem _ i 0 (by simpa using hi),
    getD_eq_getElem _ i 0 (by simpa using hi)]
  simp only [List.getElem_map]
  omega

/-- Parity sums are untouched by slot writes. -/
theorem writeAccount_paritySum (st : BankState) (i j : Nat) (v : Int) :
    paritySum (writeAccount st (i, j) v) = paritySum st := by
  unfold paritySum
  rw [writeAccount_map_parity]

/-- Active counts are untouched by slot writes. -/
theorem writeAccount_totalCount (st : BankState) (i j : Nat) (v : Int) :
    totalCount (writeAccount st (i, j) v) = totalCount st := by
  unfold totalCount
  rw [writeAccount_map_count]

/-- The short transfer preserves the balance invariant: either it does
nothing, or it moves exactly one unit between two active slots (reading the
receiver after the sender write). -/
theorem short_tx_preserves_invariant (A : Nat) (ib : Int) (st : BankState)
    (send_id recv_id : Nat) (hwf : BankWf A st)
    (hinv : balanceInvariant ib st) :
    balanceInvariant ib (short_tx st send_id recv_id).2 := by
  unfold short_tx
  cases hs : locate (st.map AccountSegment.count) send_id with
  | none => simpa using hinv
  | some sq =>
    cases hr : locate (st.map AccountSegment.count) recv_id with
    | none => simpa using hinv
    | some rq =>
      obtain ⟨i0, j0⟩ := sq
      obtain ⟨i1, j1⟩ := rq
      obtain ⟨hs1, hs2⟩ := locate_lt _ send_id i0 j0 hs
      obtain ⟨hr1, hr2⟩ := locate_lt _ recv_id i1 j1 hr
      rw [List.length_map] at hs1 hr1
      have hslen := lt_of_lt_of_le hs2 (wf_counts_le_lengths A st hwf.2 i0 hs1)
      have hrlen := lt_of_lt_of_le hr2 (wf_counts_le_lengths A st hwf.2 i1 hr1)
      simp only
      split
      · rename_i hv
        rw [balanceInvariant_iff, bankDelta] at hinv ⊢
        have h1 := writeAccount_activeSum st i0 j0 (readAccount st (i0, j0) - 1)
          hs2 (wf_counts_le_lengths A st hwf.2 i0 hs1)
        have hr2' : j1 < ((writeAccount st (i0, j0) (readAccount st (i0, j0) - 1)).map
            AccountSegment.count).getD i1 0 := by
          rw [writeAccount_map_count]
          exact hr2
        have hrle' : ((writeAccount st (i0, j0) (readAccount st (i0, j0) - 1)).map
            AccountSegment.count).getD i1 0 ≤
            ((writeAccount st (i0, j0) (readAccount st (i0, j0) - 1)).map
              (fun s => s.accounts.length)).getD i1 0 := by
          rw [writeAccount_map_count, writeAccount_map_length]
          exact wf_counts_le_lengths A st hwf.2 i1 hr1
        have h2 := writeAccount_activeSum
          (writeAccount st (i0, j0) (readAccount st (i0, j0) - 1)) i1 j1
          (readAccount (writeAccount st (i0, j0) (readAccount st (i0, j0) - 1)) (i1, j1) + 1)
          hr2' hrle'
        rw [writeAccount_paritySum, writeAccount_paritySum,
          writeAccount_totalCount, writeAccount_totalCount]
        rw [h2, h1]
        omega
      · exact hinv

/-- CLAIM C3 helper: reading the slot back after writing it. -/
theorem short_tx_self_eq (A : Nat) (st : BankState) (i : Nat)
    (hwf : BankWf A st) (hi : i < totalCount st) :
    short_tx st i i = (true, st) := by
  have hsome := locate_isSome (st.map AccountSegment.count) i hi
  obtain ⟨q, hq⟩ := Option.isSome_iff_exists.mp hsome
  obtain ⟨i0, j0⟩ := q
  obtain ⟨h1, h2⟩ := locate_lt _ i i0 j0 hq
  rw [List.length_map] at h1
  have hlen := lt_of_lt_of_le h2 (wf_counts_le_lengths A st hwf.2 i0 h1)
  unfold short_tx
  rw [hq]
  simp only
  split
  · rename_i hv
    have hread : readAccount (writeAccount st (i0, j0) (readAccount st (i0, j0) - 1))
        (i0, j0) = readAccount st (i0, j0) - 1 :=
      readAccount_writeAccount_self st i0 j0 _ hlen
    rw [hread]
    have hcancel : readAccount st (i0, j0) - 1 + 1 = readAccount st (i0, j0) := by ring
    rw [hcancel, writeAccount_writeAccount_self, writeAccount_readAccount_self st i0 j0 hlen]
  · rfl

/-!
Check-phase invariant proofs.
-/

/-- The invariant holds right after worker 0's initialization. -/
theorem checkInv_init (W : Nat) : CheckInv W (checkInit W) := by
  refine ⟨by simp [checkInit], ?_, ?_⟩
  · intro ws hws
    have hws' := List.eq_of_mem_replicate hws
    subst hws'
    simp [checkTxPerWrk]
  · simp [checkInit, List.map_replicate, List.sum_replicate]


/-- Every scheduled transaction preserves the invariant; in particular the
read-write transaction can never observe a value above its sample. -/
theorem checkInv_step (W : Nat) (s : CheckState) (w : Nat) (hinv : CheckInv W s) :
    CheckInv W (checkStep s w) := by
  obtain ⟨hlen, hall, hsum⟩ := hinv
  cases hw : s.workers[w]? with
  | none =>
    simp only [checkStep, hw]
    exact ⟨hlen, hall, hsum⟩
  | some ws =>
    obtain ⟨hwlt, hweq⟩ := List.getElem?_eq_some_iff.mp hw
    have hmem : ws ∈ s.workers := by
      rw [← hweq]
      exact List.getElem_mem hwlt
    obtain ⟨hfail, hiters, hrw⟩ := hall ws hmem
    have hgetD : (s.workers.map CheckWorker.iters).getD w 0 = ws.iters := by
      rw [getD_eq_getElem _ w 0 (by simpa using hwlt)]
      simp [List.getElem_map, hweq]
    simp only [checkStep, hw]
    split
    · exact ⟨hlen, hall, hsum⟩
    · rename_i hguard
      have hlt100 : ws.iters < checkTxPerWrk := by
        rcases Nat.lt_or_ge ws.iters checkTxPerWrk with h | h
        · exact h
        · exact absurd (Or.inr h) hguard
      split
      · -- read-only sampling transaction
        refine ⟨by simpa using hlen, ?_, ?_⟩
        · intro x hx
          simp only at hx
          rcases List.mem_or_eq_of_mem_set hx with hx' | hx'
          · obtain ⟨h1, h2, h3⟩ := hall x hx'
            exact ⟨h1, h2, h3⟩
          · subst hx'
            exact ⟨hfail, hiters, fun _ => ⟨hlt100, le_refl _⟩⟩
        · simp only [List.map_set]
          have hset : ((s.workers.map CheckWorker.iters).set w ws.iters) =
              s.workers.map CheckWorker.iters := by
            rw [← hgetD]
            exact set_getD_self _ w 0 (by simpa using hwlt)
          simp only [hset]
          exact hsum
      · -- read-write decrement transaction
        rename_i hro
        have hinRW : ws.inRW = true := by
          cases hb : ws.inRW
          · exact absurd hb hro
          · rfl
        obtain ⟨_, hcle⟩ := hrw hinRW
        split
        · rename_i hlt
          exact absurd hlt (by omega)
        · rename_i hnlt
          have hmaplen : (s.workers.map CheckWorker.iters).length = W := by
            simpa using hlen
          have hsumlt : (s.workers.map CheckWorker.iters).sum < checkTxPerWrk * W := by
            have hx := sum_lt_mul_length (s.workers.map CheckWorker.iters) checkTxPerWrk w
              (by omega) (by omega)
              (by
                intro x hx
                rw [List.mem_map] at hx
                obtain ⟨ws0, hws0, hx0⟩ := hx
                subst hx0
                exact (hall ws0 hws0).2.1)
            rwa [hmaplen] at hx
          have hc1 : 1 ≤ s.counter := by omega
          refine ⟨by simpa using hlen, ?_, ?_⟩
          · intro x hx
            simp only at hx
            rcases List.mem_or_eq_of_mem_set hx with hx' | hx'
            · obtain ⟨h1, h2, h3⟩ := hall x hx'
              refine ⟨h1, h2, fun hx3 => ⟨(h3 hx3).1, ?_⟩⟩
              have hxle := (h3 hx3).2
              show s.counter - 1 ≤ x.last
              omega
            · subst hx'
              exact ⟨hfail, Nat.succ_le_of_lt hlt100, by simp⟩
          · simp only [List.map_set]
            have hset := sum_set_nat (s.workers.map CheckWorker.iters) w (ws.iters + 1)
              (by omega)
            rw [hgetD] at hset
            show s.counter - 1 +
              ((s.workers.map CheckWorker.iters).set w (ws.iters + 1)).sum =
              checkTxPerWrk * W
            omega

/-- The invariant holds after any schedule. -/
theorem checkRun_inv (W : Nat) (sched : List Nat) : CheckInv W (checkRun W sched) := by
  unfold checkRun
  have h : ∀ s, CheckInv W s → CheckInv W (sched.foldl checkStep s) := by
    induction sched with
    | nil => intro s hs; simpa using hs
    | cons w tl ih => intro s hs; exact ih _ (checkInv_step W s w hs)
  exact h _ (checkInv_init W)

/-!
Claim theorems.
-/

/-- CLAIM C1: every bank-workload transaction executed atomically — init on
the fresh region with any `nbaccounts` and `init_balance`, `alloc_tx` with
any trigger, `short_tx` with any index pair — preserves the global balance
invariant: when the pre-state satisfies the segment-list invariant and the
sum of active balances plus segment parities equals `init_balance` times the
active-account count, the same equality holds after the commit (deallocation
absorbs the removed balance minus `init_balance` into parity, allocation
adds one balance of `init_balance`, and a newly allocated segment starts
zeroed). -/
theorem bank_transactions_preserve_balance_invariant :
    (∀ (A : Nat) (ib : Int), balanceInvariant ib (bankInit A ib (freshState A))) ∧
    (∀ (A : Nat) (ib : Int) (trigger : Nat) (st : BankState),
      BankWf A st → A < 2 ^ 64 → balanceInvariant ib st →
      ∃ stp, alloc_tx A ib trigger st = some stp ∧ balanceInvariant ib stp) ∧
    (∀ (A : Nat) (ib : Int) (send_id recv_id : Nat) (st : BankState),
      BankWf A st → balanceInvariant ib st →
      balanceInvariant ib (short_tx st send_id recv_id).2) := by
  refine ⟨balanceInvariant_bankInit_fresh, ?_, ?_⟩
  · intro A ib trigger st hwf hA hinv
    obtain ⟨stp, hstp⟩ :=
      Option.isSome_iff_exists.mp (alloc_tx_isSome A ib trigger st hwf hA)
    refine ⟨stp, hstp, ?_⟩
    rw [balanceInvariant_iff] at hinv ⊢
    unfold alloc_tx at hstp
    rw [alloc_walk_delta A ib trigger hA st hwf.2 0 stp hstp]
    exact hinv
  · intro A ib send_id recv_id st hwf hinv
    exact short_tx_preserves_invariant A ib st send_id recv_id hwf hinv

/-- Witness for C1 at concrete inputs: init of a fresh two-account region
with balance 100; an allocation with trigger 5 and a transfer 0 → 1 on the
resulting state. -/
theorem bank_transactions_preserve_balance_invariant_witness :
    balanceInvariant 100 (bankInit 2 100 (freshState 2)) ∧
    (∃ stp, alloc_tx 2 100 5 [{ count := 2, parity := 0, accounts := [100, 100] }] =
        some stp ∧ balanceInvariant 100 stp) ∧
    balanceInvariant 100
      (short_tx [{ count := 2, parity := 0, accounts := [100, 100] }] 0 1).2 :=
  ⟨bank_transactions_preserve_balance_invariant.1 2 100,
   bank_transactions_preserve_balance_invariant.2.1 2 100 5 _ (by decide) (by norm_num)
     (by decide),
   bank_transactions_preserve_balance_invariant.2.2 2 100 0 1 _ (by decide) (by decide)⟩

/-- CLAIM C2: in the check phase with `W` workers under atomic serialized
transactions, the counter starts at `100 × W`; along any schedule no
worker's read-write transaction observes a value above the `last` sampled by
its preceding read-only transaction — so no worker ever fails the check —
and once every worker has committed its 100 decrementing read-write
transactions the counter is exactly zero, so `check` returns no error. -/
theorem check_phase_counter_correct (W : Nat) (sched : List Nat) :
    (checkInit W).counter = checkTxPerWrk * W ∧ CheckGood (checkRun W sched) := by
  obtain ⟨hlen, hall, hsum⟩ := checkRun_inv W sched
  constructor
  · rfl
  · unfold CheckGood
    refine ⟨?_, ?_, ?_, ?_⟩
    · intro ws hws
      exact (hall ws hws).1
    · intro ws hws hrw
      exact ((hall ws hws).2.2 hrw).2
    · intro ws hws
      exact (hall ws hws).2.1
    · intro hdone
      have hs : ((checkRun W sched).workers.map CheckWorker.iters).sum =
          checkTxPerWrk * W := by
        have hx := sum_eq_mul_length
          ((checkRun W sched).workers.map CheckWorker.iters) checkTxPerWrk
          (by
            intro x hx
            rw [List.mem_map] at hx
            obtain ⟨ws0, hws0, hx0⟩ := hx
            subst hx0
            exact hdone ws0 hws0)
        rw [List.length_map, hlen] at hx
        exact hx
      omega

/-- Witness for C2: one worker, the straight-line schedule of its 200
transactions. -/
theorem check_phase_counter_correct_witness :
    (checkInit 1).counter = checkTxPerWrk * 1 ∧
    CheckGood (checkRun 1 (List.replicate 200 0)) :=
  check_phase_counter_correct 1 (List.replicate 200 0)

/-- CLAIM C3: for every valid account index `i` (below the total number of
active accounts), a committed `short_tx(i, i)` returns `true` and leaves
every account balance, every segment count and every parity unchanged: when
the sender balance `v` is positive the same shared slot is written `v - 1`,
read back, and incremented, restoring `v`. -/
theorem short_tx_self_transfer_noop (A : Nat) (st : BankState) (i : Nat)
    (hwf : BankWf A st) (hi : i < totalCount st) :
    short_tx st i i = (true, st) :=
  short_tx_self_eq A st i hwf hi

/-- Witness for C3: self-transfer on account 1 of a two-account segment. -/
theorem short_tx_self_transfer_noop_witness :
    short_tx [{ count := 2, parity := 0, accounts := [100, 100] }] 1 1 =
      (true, [{ count := 2, parity := 0, accounts := [100, 100] }]) :=
  short_tx_self_transfer_noop 2 _ 1 (by decide) (by decide)

/-- CLAIM C4: the bank workload never deallocates the first segment: from
any state satisfying the segment-list invariant, `alloc_tx` never reaches
the `TransactionNotLastSegment` site — in the segment-deallocation
sub-branch the guard `count > 2` forces the tail not to be the first
segment, so `prev` is non-null. -/
theorem alloc_tx_never_deallocates_first_segment (A : Nat) (ib : Int)
    (trigger : Nat) (st : BankState) (hwf : BankWf A st) (hA : A < 2 ^ 64) :
    alloc_tx A ib trigger st ≠ none :=
  Option.isSome_iff_ne_none.mp (alloc_tx_isSome A ib trigger st hwf hA)

/-- Witness for C4: a single full segment of three accounts with trigger 0,
which takes the deallocation branch. -/
theorem alloc_tx_never_deallocates_first_segment_witness :
    alloc_tx 3 100 0 [{ count := 3, parity := 0, accounts := [100, 100, 100] }] ≠
      none :=
  alloc_tx_never_deallocates_first_segment 3 100 0 _ (by decide) (by norm_num)

/-- CLAIM C5: in the reference STM, `tm_read`, `tm_write` and `tm_free`
return `true` for every memory state, region, source, size and target, and
`tm_end` returns `true`: none of these operations ever forces an abort. -/
theorem reference_stm_ops_always_succeed :
    (∀ (m : Nat → Nat) (source n target : Nat), (tm_read m source n target).2 = true) ∧
    (∀ (m : Nat → Nat) (source n target : Nat), (tm_write m source n target).2 = true) ∧
    (∀ (r : RefRegion) (segment : Nat), (tm_free r segment).2 = true) ∧
    (∀ b : Bool, tm_end b = true) :=
  ⟨fun _ _ _ _ => rfl, fun _ _ _ _ => rfl, fun _ _ => rfl, fun _ => rfl⟩

/-- CLAIM C6: every successful `tm_alloc` stores into `*target` an address
that is a multiple of `max(region align, sizeof(void*))`, whose `n` bytes
all read zero, and which sits exactly `delta_alloc` bytes past the start of
the underlying allocation, whose link node is threaded onto the region's
allocation list (letting `tm_destroy` free leaked segments). -/
theorem tm_alloc_aligned_zeroed_offset (m0 : Nat → Nat) (p size align base0 : Nat)
    (allocBase n : Nat) (hp : 0 < p) (hbase : allocBase % max align p = 0) :
    (tm_alloc (tm_create m0 p size align base0) allocBase n).2 % max align p = 0 ∧
    (∀ i, i < n →
      (tm_alloc (tm_create m0 p size align base0) allocBase n).1.mem
        ((tm_alloc (tm_create m0 p size align base0) allocBase n).2 + i) = 0) ∧
    (tm_alloc (tm_create m0 p size align base0) allocBase n).2 =
      allocBase + (tm_create m0 p size align base0).delta_alloc ∧
    (tm_alloc (tm_create m0 p size align base0) allocBase n).1.allocs =
      (tm_create m0 p size align base0).allocs ++ [allocBase] := by
  have hif : (if align < p then p else align) = max align p := by
    rcases Nat.lt_or_ge align p with h | h
    · rw [if_pos h]
      omega
    · rw [if_neg (by omega)]
      omega
  have h2 : (tm_alloc (tm_create m0 p size align base0) allocBase n).2 =
      allocBase + (2 * p + max align p - 1) / max align p * max align p := by
    simp only [tm_alloc, tm_create, hif]
  refine ⟨?_, ?_, rfl, rfl⟩
  · rw [h2, Nat.add_mul_mod_self_right, hbase]
  · intro i hi
    show memsetZero (tm_create m0 p size align base0).mem
      (allocBase + (tm_create m0 p size align base0).delta_alloc) n
      (allocBase + (tm_create m0 p size align base0).delta_alloc + i) = 0
    unfold memsetZero
    rw [if_pos ⟨Nat.le_add_right _ i, by omega⟩]

/-- Witness for C6: pointer size 8, region alignment 4, an 8-aligned block
at 16 of 5 requested bytes. -/
theorem tm_alloc_aligned_zeroed_offset_witness :
    (tm_alloc (tm_create (fun _ => 7) 8 32 4 0) 16 5).2 % max 4 8 = 0 ∧
    (tm_alloc (tm_create (fun _ => 7) 8 32 4 0) 16 5).2 =
      16 + (tm_create (fun _ => 7) 8 32 4 0).delta_alloc :=
  ⟨(tm_alloc_aligned_zeroed_offset (fun _ => 7) 8 32 4 0 16 5 (by norm_num)
      (by norm_num)).1,
   (tm_alloc_aligned_zeroed_offset (fun _ => 7) 8 32 4 0 16 5 (by norm_num)
      (by norm_num)).2.2.1⟩

/-- CLAIM C7: after the `nbrepeats` successful measurement phases, the run
time `measure` reports is the element at index `⌊K/2⌋` of the run-time
array partially sorted by `nth_element` — the `(⌊K/2⌋ + 1)`-th smallest of
the `K` measured times (for `K = 7`, the 4th smallest, the median). -/
theorem measure_reports_median_runtime (times : List Nat)
    (h : times.length = nbrepeats) :
    posmedian = 3 ∧
    ∃ sorted : List Nat, List.Perm sorted times ∧ sorted.Sorted (· ≤ ·) ∧
      sorted.length = nbrepeats ∧
      reportedRunTime times = sorted.getD posmedian 0 := by
  refine ⟨rfl, times.mergeSort (fun a b => a ≤ b), List.mergeSort_perm times _, ?_, ?_, rfl⟩
  · exact List.sorted_mergeSort' times
  · rw [(List.mergeSort_perm times _).length_eq, h]

/-- Witness for C7 on seven concrete run times. -/
theorem measure_reports_median_runtime_witness :
    posmedian = 3 ∧
    ∃ sorted : List Nat, List.Perm sorted [5, 1, 4, 2, 8, 3, 9] ∧
      sorted.Sorted (· ≤ ·) ∧ sorted.length = nbrepeats ∧
      reportedRunTime [5, 1, 4, 2, 8, 3, 9] = sorted.getD posmedian 0 :=
  measure_reports_median_runtime [5, 1, 4, 2, 8, 3, 9] (by decide)

/-- CLAIM C8 counterexample: a candidate whose phase times out makes the
harness `std::quick_exit(2)` — the process exit status is 2, not 1. -/
theorem timeout_exit_code_counterexample :
    mainExitModel [PhaseOutcome.timeout] = HarnessExit.quickExit 2 ∧
    exitCode (mainExitModel [PhaseOutcome.timeout]) ≠ 1 := by
  constructor
  · rfl
  · decide

/-- CLAIM C8 amended: when any phase of a candidate exceeds its timeout
budget (all earlier phases having completed), `master_wait` throws
`BoundedOverrun`, `measure` detaches the workers and rethrows, and `main`
catches the exception and quick-exits the process with code 2. -/
theorem timeout_quick_exits_with_code_two (pre post : List PhaseOutcome)
    (hpre : ∀ x ∈ pre, x.isOk = true) :
    mainExitModel (pre ++ PhaseOutcome.timeout :: post) = HarnessExit.quickExit 2 := by
  have h : ∀ (pre2 : List PhaseOutcome), (∀ x ∈ pre2, x.isOk = true) →
      runPhases (pre2 ++ PhaseOutcome.timeout :: post) = MeasureResult.thrown := by
    intro pre2
    induction pre2 with
    | nil =>
      intro _
      rfl
    | cons x tl ih =>
      intro hp
      have hx := hp x (by simp)
      cases x with
      | ok t =>
        simp only [List.cons_append, runPhases]
        exact ih (fun y hy => hp y (by simp [hy]))
      | violation m => simp [PhaseOutcome.isOk] at hx
      | timeout => simp [PhaseOutcome.isOk] at hx
  unfold mainExitModel
  rw [h pre hpre]

/-- Witness for the amended C8: an in-time init phase, then a timeout. -/
theorem timeout_quick_exits_with_code_two_witness :
    mainExitModel [PhaseOutcome.ok 5, PhaseOutcome.timeout, PhaseOutcome.ok 7] =
      HarnessExit.quickExit 2 :=
  timeout_quick_exits_with_code_two [PhaseOutcome.ok 5] [PhaseOutcome.ok 7] (by decide)

/-- CLAIM C9: for every region, `tm_destroy` frees the region structure and
only afterwards calls `lock_cleanup` on the `lock` field of that structure:
the destroy trace ends with the access to the region right after its free —
a use of freed memory. -/
theorem tm_destroy_frees_region_before_lock_cleanup (allocs : List Nat) :
    ∃ pre, tm_destroy_trace allocs =
      pre ++ [DestroyEvent.freeRegion, DestroyEvent.cleanupLockField] := by
  refine ⟨allocs.map DestroyEvent.freeSegment ++ [DestroyEvent.freeStart], ?_⟩
  simp [tm_destroy_trace]

/-- CLAIM C10: a successful `tm_create` zeroes all `size` bytes of the first
segment, and the workload's init writes only the account count and the
`nbaccounts` balances; hence after a committed init on a fresh region the
first segment's next pointer is null (the chain is the singleton) and its
parity is zero, and the balance invariant relied on by the long, alloc and
check transactions holds. -/
theorem tm_create_zeroed_and_init_singleton (m0 : Nat → Nat)
    (p size align base A : Nat) (ib : Int) :
    ZeroedFirstSegment (tm_create m0 p size align base) ∧
    bankInit A ib (freshState A) =
      [{ count := A, parity := 0, accounts := List.replicate A ib }] ∧
    balanceInvariant ib (bankInit A ib (freshState A)) := by
  refine ⟨?_, bankInit_fresh A ib, balanceInvariant_bankInit_fresh A ib⟩
  intro i hi
  have hi' : i < size := hi
  show memsetZero m0 base size (base + i) = 0
  unfold memsetZero
  rw [if_pos ⟨Nat.le_add_right base i, by omega⟩]
